import Mathlib

/-!
Verification of the tagged-value bridge of `src/wrappers/jit.rs`.

The Rust module defines the recursive tagged value type `IValue`, its
conversions `IValue::to_c` / `IValue::of_c` to and from the opaque native
representation (`*mut CIValue`), and the module wrapper `CModule` with its
`forward_is` entry point.  We embed the module shallowly:

* the native side (the `ati_*` calls of `torch_sys` and the helper
  `ptr_to_string`, which are outside `src/`) is modelled from the spec as an
  explicit heap of numbered native handles, each holding a tagged native
  value; allocation appends a fresh handle, `ati_free` removes one;
* the Rust functions are translated line by line into state-passing Lean
  functions threading that heap; `Fallible` results become `Except`;
* `f64` is modelled by `F64`: a NaN (carrying an arbitrary payload, never
  equal to anything under IEEE comparison) or a non-NaN bit pattern;
* Rust `String` is modelled by its UTF-8 byte list together with the
  validity invariant every Rust `String` carries.

A run that returns `Except.error` with a plain conversion error corresponds
to an `Err` return of the Rust code; the distinguished outcomes `panicked`
(process abort via `unwrap`) and `invalidFree` (freeing a handle that is not
live, which is undefined behaviour at the C boundary) are kept separate so
that theorems can tell recoverable errors from aborts and from double frees.
-/

/-- Bytes of a text or native string buffer, each entry one byte. -/
abbrev Bytes := List Nat

/-- UTF-8 validity of a byte sequence, as checked by Rust when a `String` is
built (the table of valid lead/continuation byte ranges, surrogates and
overlong encodings excluded). -/
def validUtf8 : Bytes → Bool
  | [] => true
  | b :: bs =>
    if b ≤ 0x7F then validUtf8 bs
    else if 0xC2 ≤ b && b ≤ 0xDF then
      match bs with
      | b2 :: bs2 => (0x80 ≤ b2 && b2 ≤ 0xBF) && validUtf8 bs2
      | [] => false
    else if b = 0xE0 then
      match bs with
      | b2 :: b3 :: bs3 =>
        (0xA0 ≤ b2 && b2 ≤ 0xBF) && (0x80 ≤ b3 && b3 ≤ 0xBF) && validUtf8 bs3
      | _ => false
    else if (0xE1 ≤ b && b ≤ 0xEC) || b = 0xEE || b = 0xEF then
      match bs with
      | b2 :: b3 :: bs3 =>
        (0x80 ≤ b2 && b2 ≤ 0xBF) && (0x80 ≤ b3 && b3 ≤ 0xBF) && validUtf8 bs3
      | _ => false
    else if b = 0xED then
      match bs with
      | b2 :: b3 :: bs3 =>
        (0x80 ≤ b2 && b2 ≤ 0x9F) && (0x80 ≤ b3 && b3 ≤ 0xBF) && validUtf8 bs3
      | _ => false
    else if b = 0xF0 then
      match bs with
      | b2 :: b3 :: b4 :: bs4 =>
        (0x90 ≤ b2 && b2 ≤ 0xBF) && (0x80 ≤ b3 && b3 ≤ 0xBF) &&
          (0x80 ≤ b4 && b4 ≤ 0xBF) && validUtf8 bs4
      | _ => false
    else if 0xF1 ≤ b && b ≤ 0xF3 then
      match bs with
      | b2 :: b3 :: b4 :: bs4 =>
        (0x80 ≤ b2 && b2 ≤ 0xBF) && (0x80 ≤ b3 && b3 ≤ 0xBF) &&
          (0x80 ≤ b4 && b4 ≤ 0xBF) && validUtf8 bs4
      | _ => false
    else if b = 0xF4 then
      match bs with
      | b2 :: b3 :: b4 :: bs4 =>
        (0x80 ≤ b2 && b2 ≤ 0x8F) && (0x80 ≤ b3 && b3 ≤ 0xBF) &&
          (0x80 ≤ b4 && b4 ≤ 0xBF) && validUtf8 bs4
      | _ => false
    else false

/-- A Rust `String`: a byte sequence that is valid UTF-8.  The invariant is
part of the Rust type, so the model carries it. -/
def Str := { bs : Bytes // validUtf8 bs = true }

instance : DecidableEq Str := Subtype.instDecidableEq

/-- The value of a Rust `f64`.  IEEE 754 comparison semantics is what the
derived `PartialEq` of `IValue` uses on `Double`: `nan` carries an arbitrary
payload and compares unequal to everything, `num` is any non-NaN bit
pattern, with the two zero bit patterns comparing equal. -/
inductive F64 where
  | nan (payload : Nat)
  | num (bits : Nat)
deriving DecidableEq

/-- The bit pattern of IEEE negative zero, the one non-trivial identification
`f64` equality makes between distinct bit patterns. -/
def negZeroBits : Nat := 0x8000000000000000

/-- IEEE 754 equality on `f64`, the comparison Rust `f64 : PartialEq` uses:
NaN is unequal to everything (itself included); +0 and -0 are equal;
otherwise two doubles are equal exactly when their bits agree. -/
def F64.ieeeEq : F64 → F64 → Bool
  | .num a, .num b => a == b || (a == 0 && b == negZeroBits) || (a == negZeroBits && b == 0)
  | _, _ => false

/-- `enum IValue` of `jit.rs` lines 10-19: argument and output values for JIT
models.  `Tensor` carries the `c_tensor` pointer of the wrapped tensor,
modelled as an opaque number. -/
inductive IValue where
  | none
  | tensor (t : Nat)
  | double (f : F64)
  | int (i : Int)
  | bool (b : Bool)
  | tuple (vs : List IValue)
  | string (s : Str)

/-- Modelled from the spec: the value held by a native `CIValue` handle.
Constructors mirror the native engine's tagged variants; `ntuple` holds the
element values themselves (the spec: the native tuple call copies/retains
what it needs); `nstring` holds a raw byte buffer, which unlike a Rust
`String` need not be valid UTF-8; `nother` stands for any native value whose
tag is outside the bridged set (the engine has further variants such as
lists), carrying that foreign tag. -/
inductive NativeVal where
  | nnone
  | ntensor (t : Nat)
  | ndouble (f : F64)
  | nint (i : Int)
  | nbool (b : Int)
  | ntuple (vs : List NativeVal)
  | nstring (bs : Bytes)
  | nother (tag : Int)

/-- Modelled from the spec: the integer tag `ati_tag` reports for a native
value, dispatch table tag 0 none, 1 tensor, 2 double, 3 int, 4 bool,
5 tuple, 9 string; `nother` carries its own foreign tag. -/
def NativeVal.tag : NativeVal → Int
  | .nnone => 0
  | .ntensor _ => 1
  | .ndouble _ => 2
  | .nint _ => 3
  | .nbool _ => 4
  | .ntuple _ => 5
  | .nstring _ => 9
  | .nother t => t

/-- Outcomes of a bridge operation beyond success.  The first four are the
`Err` returns of the Rust code (`failure::Error` values): `nulError` is the
embedded-null `CString` failure of `to_c` on strings, `boolErr` the
`ensure!` failure on a negative native bool, `tagErr` the unhandled-tag
error of `of_c`, `torchErr` any error signalled by a native call through
the error-checking wrapper.  `panicked` is a process abort (the `unwrap` on
string decoding), `invalidFree` is freeing a dead handle (undefined
behaviour at the boundary), and `outOfFuel` is an artifact of the fueled
evaluator for `of_c`, never reached when the fuel bound exceeds the stored
value's size. -/
inductive Failure where
  | nulError
  | boolErr (b : Int)
  | tagErr (t : Int)
  | torchErr
  | panicked
  | invalidFree (p : Nat)
  | outOfFuel
deriving DecidableEq

/-- Modelled from the spec: the native engine's store of live `CIValue`
handles.  `mem` associates each live handle number with the value it holds,
`next` is the next fresh handle number. -/
structure Heap where
  mem : List (Nat × NativeVal)
  next : Nat

/-- Handle lookup in the store. -/
def lookupH : List (Nat × NativeVal) → Nat → Option NativeVal
  | [], _ => Option.none
  | (k, v) :: m, p => if k = p then some v else lookupH m p

/-- Removing a handle from the store. -/
def removeH : List (Nat × NativeVal) → Nat → List (Nat × NativeVal)
  | [], _ => []
  | (k, v) :: m, p => if k = p then removeH m p else (k, v) :: removeH m p

/-- Removing a list of handles from the store, in order. -/
def removeHList (m : List (Nat × NativeVal)) : List Nat → List (Nat × NativeVal)
  | [] => m
  | p :: ps => removeHList (removeH m p) ps

/-- Allocation of a fresh native handle holding `v`. -/
def Heap.alloc (h : Heap) (v : NativeVal) : Nat × Heap :=
  (h.next, ⟨h.mem ++ [(h.next, v)], h.next + 1⟩)

/-- Well-formedness of the store: every live handle number is below the
fresh counter, so freshly allocated handles never collide. -/
def Heap.wf (h : Heap) : Prop := ∀ e ∈ h.mem, e.1 < h.next

instance (h : Heap) : Decidable h.wf := List.decidableBAll _ _

/-- Modelled from the spec: `ati_none`, native constructor of the none
value. -/
def atiNone (h : Heap) : Except Failure Nat × Heap :=
  let (p, h1) := h.alloc .nnone
  (.ok p, h1)

/-- Modelled from the spec: `ati_tensor`, wraps a tensor handle in a native
value without taking ownership of the tensor. -/
def atiTensor (t : Nat) (h : Heap) : Except Failure Nat × Heap :=
  let (p, h1) := h.alloc (.ntensor t)
  (.ok p, h1)

/-- Modelled from the spec: `ati_double`. -/
def atiDouble (f : F64) (h : Heap) : Except Failure Nat × Heap :=
  let (p, h1) := h.alloc (.ndouble f)
  (.ok p, h1)

/-- Modelled from the spec: `ati_int`. -/
def atiInt (i : Int) (h : Heap) : Except Failure Nat × Heap :=
  let (p, h1) := h.alloc (.nint i)
  (.ok p, h1)

/-- Modelled from the spec: `ati_bool`, taking the C int encoding. -/
def atiBool (b : Int) (h : Heap) : Except Failure Nat × Heap :=
  let (p, h1) := h.alloc (.nbool b)
  (.ok p, h1)

/-- Modelled from the spec: `ati_string`, copying a null-terminated byte
buffer (hence null-free content) into a native string value. -/
def atiString (bs : Bytes) (h : Heap) : Except Failure Nat × Heap :=
  let (p, h1) := h.alloc (.nstring bs)
  (.ok p, h1)

/-- Reading the values held by a list of handles, as the native tuple
constructor does; fails if any handle is dead. -/
def readVals : List Nat → Heap → Option (List NativeVal)
  | [], _ => some []
  | p :: ps, h =>
    match lookupH h.mem p with
    | some v =>
      match readVals ps h with
      | some vs => some (v :: vs)
      | _ => Option.none
    | _ => Option.none

/-- Modelled from the spec: `ati_tuple` builds a native tuple from the
values currently held by the argument handles, copying them — ownership of
the children stays with the caller. -/
def atiTuple (ps : List Nat) (h : Heap) : Except Failure Nat × Heap :=
  match readVals ps h with
  | some vs =>
    let (p, h1) := h.alloc (.ntuple vs)
    (.ok p, h1)
  | _ => (.error .torchErr, h)

/-- Modelled from the spec: `ati_free`, the native value destructor.  Not
idempotent: freeing a dead handle is undefined behaviour, surfaced in the
model as the `invalidFree` outcome. -/
def atiFree (p : Nat) (h : Heap) : Except Failure Unit × Heap :=
  match lookupH h.mem p with
  | some _ => (.ok (), ⟨removeH h.mem p, h.next⟩)
  | _ => (.error (.invalidFree p), h)

/-- Freeing a list of handles in order, stopping at the first invalid
free — the cleanup loop of `to_c`'s tuple arm (`jit.rs` lines 33-35). -/
def freeList : List Nat → Heap → Except Failure Unit × Heap
  | [], h => (.ok (), h)
  | p :: ps, h =>
    match atiFree p h with
    | (.ok _, h1) => freeList ps h1
    | (.error e, h1) => (.error e, h1)

/-- Freeing a list of handles without checking the outcome — the unchecked
`ati_free` loop of `forward_is` (`jit.rs` lines 130-132 use a plain
`unsafe` block, not the error-checking wrapper). -/
def freeRawList (ps : List Nat) (h : Heap) : Heap :=
  ⟨removeHList h.mem ps, h.next⟩

/-- Modelled from the spec: `ati_tag`, reads the dispatch tag of the value
held by a handle. -/
def atiTag (p : Nat) (h : Heap) : Except Failure Int :=
  match lookupH h.mem p with
  | some v => .ok v.tag
  | _ => .error .torchErr

/-- Modelled from the spec: `ati_to_tensor`. -/
def atiToTensor (p : Nat) (h : Heap) : Except Failure Nat :=
  match lookupH h.mem p with
  | some (.ntensor t) => .ok t
  | _ => .error .torchErr

/-- Modelled from the spec: `ati_to_double`. -/
def atiToDouble (p : Nat) (h : Heap) : Except Failure F64 :=
  match lookupH h.mem p with
  | some (.ndouble f) => .ok f
  | _ => .error .torchErr

/-- Modelled from the spec: `ati_to_int`. -/
def atiToInt (p : Nat) (h : Heap) : Except Failure Int :=
  match lookupH h.mem p with
  | some (.nint i) => .ok i
  | _ => .error .torchErr

/-- Modelled from the spec: `ati_to_bool`, returning the C int the engine
stores for a bool value. -/
def atiToBool (p : Nat) (h : Heap) : Except Failure Int :=
  match lookupH h.mem p with
  | some (.nbool b) => .ok b
  | _ => .error .torchErr

/-- Modelled from the spec: `ati_tuple_length`. -/
def atiTupleLength (p : Nat) (h : Heap) : Except Failure Nat :=
  match lookupH h.mem p with
  | some (.ntuple vs) => .ok vs.length
  | _ => .error .torchErr

/-- Allocating one fresh handle per value of a list, in order. -/
def allocList : List NativeVal → Heap → List Nat × Heap
  | [], h => ([], h)
  | v :: vs, h =>
    let (p, h1) := h.alloc v
    let (ps, h2) := allocList vs h1
    (p :: ps, h2)

/-- Modelled from the spec: `ati_to_tuple` fills a caller-provided buffer of
`len` slots with one fresh handle per element of the tuple held by `p`. -/
def atiToTuple (p : Nat) (len : Nat) (h : Heap) : Except Failure (List Nat) × Heap :=
  match lookupH h.mem p with
  | some (.ntuple vs) =>
    if vs.length = len then
      let (ps, h1) := allocList vs h
      (.ok ps, h1)
    else (.error .torchErr, h)
  | _ => (.error .torchErr, h)

/-- Modelled from the spec: `ati_to_string`, handing out the byte buffer of
a native string value. -/
def atiToString (p : Nat) (h : Heap) : Except Failure Bytes :=
  match lookupH h.mem p with
  | some (.nstring bs) => .ok bs
  | _ => .error .torchErr

/-- Modelled from the spec: `ptr_to_string` of the wrappers' utils (not
under `src/`), which copies a native byte buffer into an owned Rust
`String`, returning nothing when the bytes are not valid UTF-8. -/
def ptrToString (bs : Bytes) : Option Str :=
  if hv : validUtf8 bs = true then some ⟨bs, hv⟩ else Option.none

mutual
/-- `IValue::to_c` (`jit.rs` lines 22-46), translated arm by arm in source
order, threading the native heap.  The tuple arm converts the elements
first (`collect` over `Fallible` stops at the first error, dropping — not
freeing — the handles already produced), builds the native tuple from the
child handles, then frees every child handle. -/
def toC : IValue → Heap → Except Failure Nat × Heap
  | .tensor t, h => atiTensor t h
  | .int i, h => atiInt i h
  | .none, h => atiNone h
  | .double f, h => atiDouble f h
  | .bool b, h => atiBool (if b then 1 else 0) h
  | .tuple vs, h =>
    match toCList vs h with
    | (.error e, h1) => (.error e, h1)
    | (.ok ps, h1) =>
      match atiTuple ps h1 with
      | (.error e, h2) => (.error e, h2)
      | (.ok tp, h2) =>
        match freeList ps h2 with
        | (.error e, h3) => (.error e, h3)
        | (.ok _, h3) => (.ok tp, h3)
  | .string s, h =>
    if 0 ∈ s.val then (.error .nulError, h)
    else atiString s.val h

/-- The element loop of `to_c`'s tuple arm:
`v.iter().map(Self::to_c).collect::<Fallible<Vec<_>>>()?`. -/
def toCList : List IValue → Heap → Except Failure (List Nat) × Heap
  | [], h => (.ok [], h)
  | v :: vs, h =>
    match toC v h with
    | (.error e, h1) => (.error e, h1)
    | (.ok p, h1) =>
      match toCList vs h1 with
      | (.error e, h2) => (.error e, h2)
      | (.ok ps, h2) => (.ok (p :: ps), h2)
end

/-- Sequential conversion of a list of handles by `f`, stopping at the
first error — the `collect` over the retrieved tuple element handles in
`of_c`'s tuple arm. -/
def mapState (f : Nat → Heap → Except Failure IValue × Heap) :
    List Nat → Heap → Except Failure (List IValue) × Heap
  | [], h => (.ok [], h)
  | q :: qs, h =>
    match f q h with
    | (.error e, h1) => (.error e, h1)
    | (.ok v, h1) =>
      match mapState f qs h1 with
      | (.error e, h2) => (.error e, h2)
      | (.ok vs, h2) => (.ok (v :: vs), h2)

/-- `IValue::of_c` (`jit.rs` lines 49-84), fueled so that the recursion
through freshly allocated child handles terminates; `fuel` strictly exceeds
the size of the value read in every run the theorems below consider.  The
tag dispatch, the accessor calls, the early `?` returns and the final
`ati_free` follow the source order exactly: the free of the input handle at
line 82 runs only after the `match` produced a value, so every error arm
returns with the input handle still live. -/
def ofCF (fuel : Nat) (p : Nat) (h : Heap) : Except Failure IValue × Heap :=
  if fuel = 0 then (.error .outOfFuel, h)
  else
    match atiTag p h with
    | .error e => (.error e, h)
    | .ok tag =>
      let step : Except Failure IValue × Heap :=
        if tag = 0 then (.ok .none, h)
        else if tag = 1 then
          match atiToTensor p h with
          | .error e => (.error e, h)
          | .ok t => (.ok (.tensor t), h)
        else if tag = 2 then
          match atiToDouble p h with
          | .error e => (.error e, h)
          | .ok f => (.ok (.double f), h)
        else if tag = 3 then
          match atiToInt p h with
          | .error e => (.error e, h)
          | .ok i => (.ok (.int i), h)
        else if tag = 4 then
          match atiToBool p h with
          | .error e => (.error e, h)
          | .ok b => if b < 0 then (.error (.boolErr b), h) else (.ok (.bool (b != 0)), h)
        else if tag = 5 then
          match atiTupleLength p h with
          | .error e => (.error e, h)
          | .ok len =>
            match atiToTuple p len h with
            | (.error e, h1) => (.error e, h1)
            | (.ok qs, h1) =>
              match mapState (fun q hh => ofCF (fuel - 1) q hh) qs h1 with
              | (.error e, h2) => (.error e, h2)
              | (.ok vs, h2) => (.ok (.tuple vs), h2)
        else if tag = 9 then
          match atiToString p h with
          | .error e => (.error e, h)
          | .ok bs =>
            match ptrToString bs with
            | some s => (.ok (.string s), h)
            | _ => (.error .panicked, h)
        else (.error (.tagErr tag), h)
      match step with
      | (.error e, h1) => (.error e, h1)
      | (.ok v, h1) =>
        match atiFree p h1 with
        | (.error e, h2) => (.error e, h2)
        | (.ok _, h2) => (.ok v, h2)
termination_by fuel

mutual
/-- Size of a native value, bounding the recursion depth `of_c` needs. -/
def nwt : NativeVal → Nat
  | .nnone => 1
  | .ntensor _ => 1
  | .ndouble _ => 1
  | .nint _ => 1
  | .nbool _ => 1
  | .ntuple vs => 1 + nwtL vs
  | .nstring _ => 1
  | .nother _ => 1
/-- Size of a list of native values. -/
def nwtL : List NativeVal → Nat
  | [] => 0
  | v :: vs => nwt v + nwtL vs
end

/-- Total size of the values held in a store, an upper bound for the size
of any single stored value. -/
def totalWt : List (Nat × NativeVal) → Nat
  | [] => 0
  | e :: m => nwt e.2 + totalWt m

/-- `IValue::of_c` on a handle of heap `h`: the fueled evaluator with fuel
strictly exceeding the total size of the store, which strictly exceeds the
size of the value the handle holds. -/
def ofC (p : Nat) (h : Heap) : Except Failure IValue × Heap :=
  ofCF (totalWt h.mem + 1) p h

/-- Modelled from the spec: the loaded module.  The source `CModule` owns a
raw `*mut CModule_`; the model replaces the opaque native module by the one
behaviour `forward_is` observes through it: the engine's forward call on
the argument values, producing a result value or failing. -/
structure CModule where
  forwardVals : List NativeVal → Option NativeVal

/-- Modelled from the spec: `atm_forward_`, the native forward call on
tagged values.  It borrows the argument handles (no ownership transfer),
runs the engine on the values they hold, and allocates a fresh handle for
the result; a failure is signalled through the engine's error convention
and caught by the wrapper. -/
def atmForwardValues (m : CModule) (ps : List Nat) (h : Heap) : Except Failure Nat × Heap :=
  match readVals ps h with
  | some vs =>
    match m.forwardVals vs with
    | some rv =>
      let (p, h1) := h.alloc rv
      (.ok p, h1)
    | _ => (.error .torchErr, h)
  | _ => (.error .torchErr, h)

/-- `CModule::forward_is` (`jit.rs` lines 123-134): convert every argument
with `to_c` (stopping at the first failure), run the native forward call,
free the temporary argument handles with the unchecked loop, convert the
result with `of_c`.  The `?` on the argument conversion and the error check
on the forward call both return before the free loop runs. -/
def forwardIs (m : CModule) (args : List IValue) (h : Heap) :
    Except Failure IValue × Heap :=
  match toCList args h with
  | (.error e, h1) => (.error e, h1)
  | (.ok ps, h1) =>
    match atmForwardValues m ps h1 with
    | (.error e, h2) => (.error e, h2)
    | (.ok rp, h2) =>
      let h3 := freeRawList ps h2
      ofC rp h3

mutual
/-- The native encoding `to_c` produces for a managed value: the value the
allocated handle holds on `to_c`'s success path. -/
def encode : IValue → NativeVal
  | .none => .nnone
  | .tensor t => .ntensor t
  | .double f => .ndouble f
  | .int i => .nint i
  | .bool b => .nbool (if b then 1 else 0)
  | .tuple vs => .ntuple (encodeL vs)
  | .string s => .nstring s.val
/-- Element-wise native encoding of a list of values. -/
def encodeL : List IValue → List NativeVal
  | [] => []
  | v :: vs => encode v :: encodeL vs
end

mutual
/-- Size of a managed value, the recursion-depth measure of the round
trip. -/
def wt : IValue → Nat
  | .none => 1
  | .tensor _ => 1
  | .double _ => 1
  | .int _ => 1
  | .bool _ => 1
  | .tuple vs => 1 + wtL vs
  | .string _ => 1
/-- Size of a list of managed values. -/
def wtL : List IValue → Nat
  | [] => 0
  | v :: vs => wt v + wtL vs
end

mutual
/-- No `Tensor` variant anywhere in the value — the hypothesis of the
round-trip law. -/
def tensorFree : IValue → Bool
  | .none => true
  | .tensor _ => false
  | .double _ => true
  | .int _ => true
  | .bool _ => true
  | .tuple vs => tensorFreeL vs
  | .string _ => true
/-- No `Tensor` variant anywhere in a list of values. -/
def tensorFreeL : List IValue → Bool
  | [] => true
  | v :: vs => tensorFree v && tensorFreeL vs
end

mutual
/-- No embedded null byte in any `String` component — the condition under
which every `CString::new` inside `to_c` succeeds. -/
def noNulls : IValue → Bool
  | .none => true
  | .tensor _ => true
  | .double _ => true
  | .int _ => true
  | .bool _ => true
  | .tuple vs => noNullsL vs
  | .string s => !(decide (0 ∈ s.val))
/-- No embedded null byte in any `String` component of a list of values. -/
def noNullsL : List IValue → Bool
  | [] => true
  | v :: vs => noNulls v && noNullsL vs
end

mutual
/-- The derived `PartialEq` of `IValue` (`#[derive(Debug, PartialEq)]`,
`jit.rs` line 10): structural comparison, delegating to `f64` IEEE equality
on `Double`, element-wise comparison on `Tuple`, byte equality on `String`,
and the externally defined tensor comparison on `Tensor` (modelled here as
handle equality; no theorem below compares tensors). -/
def ivalueEq : IValue → IValue → Bool
  | .none, .none => true
  | .tensor a, .tensor b => a == b
  | .double a, .double b => F64.ieeeEq a b
  | .int a, .int b => a == b
  | .bool a, .bool b => a == b
  | .tuple a, .tuple b => ivalueEqL a b
  | .string a, .string b => a.val == b.val
  | _, _ => false
/-- Element-wise derived equality on `Vec<IValue>`: equal lengths and equal
elements. -/
def ivalueEqL : List IValue → List IValue → Bool
  | [], [] => true
  | a :: as', b :: bs' => ivalueEq a b && ivalueEqL as' bs'
  | _, _ => false
end

/-! ### Store algebra -/

/-- Handle `p` does not occur as a key of the store fragment `m`. -/
def NotKey (m : List (Nat × NativeVal)) (p : Nat) : Prop := ∀ e ∈ m, e.1 ≠ p

lemma notKey_nil {p : Nat} : NotKey [] p := by
  intro e he
  simp at he

lemma notKey_cons {m : List (Nat × NativeVal)} {k : Nat} {w : NativeVal} {p : Nat}
    (hk : k ≠ p) (hm : NotKey m p) : NotKey ((k, w) :: m) p := by
  intro e he
  rcases List.mem_cons.mp he with rfl | he1
  · exact hk
  · exact hm e he1

lemma notKey_of_cons {m : List (Nat × NativeVal)} {e : Nat × NativeVal} {p : Nat}
    (h : NotKey (e :: m) p) : NotKey m p :=
  fun e' he' => h e' (List.mem_cons_of_mem _ he')

lemma notKey_append {a b : List (Nat × NativeVal)} {p : Nat}
    (ha : NotKey a p) (hb : NotKey b p) : NotKey (a ++ b) p := by
  intro e he
  rcases List.mem_append.mp he with h1 | h1
  · exact ha e h1
  · exact hb e h1

lemma lookupH_append_left {a : List (Nat × NativeVal)} {p : Nat} {v : NativeVal}
    (b : List (Nat × NativeVal)) (h : lookupH a p = some v) :
    lookupH (a ++ b) p = some v := by
  induction a with
  | nil => simp [lookupH] at h
  | cons e a ih =>
    obtain ⟨k, w⟩ := e
    rw [List.cons_append, lookupH]
    rw [lookupH] at h
    by_cases hk : k = p
    · simpa [hk] using h
    · rw [if_neg hk] at h ⊢
      exact ih h

lemma lookupH_append_right {a : List (Nat × NativeVal)} {p : Nat}
    (b : List (Nat × NativeVal)) (h : NotKey a p) :
    lookupH (a ++ b) p = lookupH b p := by
  induction a with
  | nil => simp
  | cons e a ih =>
    obtain ⟨k, w⟩ := e
    have hk : k ≠ p := h (k, w) (by simp)
    rw [List.cons_append, lookupH, if_neg hk]
    exact ih (notKey_of_cons h)

lemma lookupH_eq_none {m : List (Nat × NativeVal)} {p : Nat} (h : NotKey m p) :
    lookupH m p = Option.none := by
  have := lookupH_append_right (a := m) [] h
  simpa using this

lemma removeH_append (a b : List (Nat × NativeVal)) (p : Nat) :
    removeH (a ++ b) p = removeH a p ++ removeH b p := by
  induction a with
  | nil => rw [List.nil_append, removeH, List.nil_append]
  | cons e a ih =>
    obtain ⟨k, w⟩ := e
    rw [List.cons_append, removeH, removeH]
    by_cases hk : k = p
    · rw [if_pos hk, if_pos hk, ih]
    · rw [if_neg hk, if_neg hk, List.cons_append, ih]

lemma removeH_of_notKey {m : List (Nat × NativeVal)} {p : Nat} (h : NotKey m p) :
    removeH m p = m := by
  induction m with
  | nil => rw [removeH]
  | cons e m ih =>
    obtain ⟨k, w⟩ := e
    have hk : k ≠ p := h (k, w) (by simp)
    rw [removeH, if_neg hk, ih (notKey_of_cons h)]

lemma lookupH_removeH_ne {m : List (Nat × NativeVal)} {p q : Nat} (h : q ≠ p) :
    lookupH (removeH m p) q = lookupH m q := by
  induction m with
  | nil => rw [removeH]
  | cons e m ih =>
    obtain ⟨k, w⟩ := e
    rw [removeH]
    by_cases hk : k = p
    · rw [if_pos hk, ih, lookupH, if_neg (by omega : ¬ k = q)]
    · rw [if_neg hk, lookupH, lookupH, ih]

lemma mem_removeH {m : List (Nat × NativeVal)} {p : Nat} {e : Nat × NativeVal}
    (h : e ∈ removeH m p) : e ∈ m := by
  induction m with
  | nil => rw [removeH] at h; exact absurd h (by simp)
  | cons f m ih =>
    obtain ⟨k, w⟩ := f
    rw [removeH] at h
    by_cases hk : k = p
    · rw [if_pos hk] at h
      exact List.mem_cons_of_mem _ (ih h)
    · rw [if_neg hk] at h
      rcases List.mem_cons.mp h with rfl | h1
      · exact List.mem_cons_self _ _
      · exact List.mem_cons_of_mem _ (ih h1)

lemma notKey_removeH {m : List (Nat × NativeVal)} {p q : Nat} (h : NotKey m p) :
    NotKey (removeH m q) p :=
  fun e he => h e (mem_removeH he)

lemma removeHList_append (a b : List (Nat × NativeVal)) (qs : List Nat) :
    removeHList (a ++ b) qs = removeHList a qs ++ removeHList b qs := by
  induction qs generalizing a b with
  | nil => rw [removeHList, removeHList, removeHList]
  | cons q qs ih => rw [removeHList, removeH_append, ih, removeHList, removeHList]

lemma removeHList_of_notKey {m : List (Nat × NativeVal)} {qs : List Nat}
    (h : ∀ q ∈ qs, NotKey m q) : removeHList m qs = m := by
  induction qs with
  | nil => rw [removeHList]
  | cons q qs ih =>
    rw [removeHList, removeH_of_notKey (h q (by simp))]
    exact ih (fun q' hq' => h q' (by simp [hq']))

lemma notKey_zip {qs : List Nat} {ws : List NativeVal} {p : Nat} (h : p ∉ qs) :
    NotKey (qs.zip ws) p := by
  intro e he
  have h1 := List.of_mem_zip he
  intro hk
  exact h (hk ▸ h1.1)

lemma removeHList_zip_self {qs : List Nat} {ws : List NativeVal}
    (hn : qs.Nodup) (hl : qs.length = ws.length) :
    removeHList (qs.zip ws) qs = [] := by
  induction qs generalizing ws with
  | nil => rw [List.zip_nil_left, removeHList]
  | cons q qs ih =>
    obtain ⟨w, ws, rfl⟩ : ∃ w ws', ws = w :: ws' := by
      cases ws with
      | nil => simp at hl
      | cons w ws => exact ⟨w, ws, rfl⟩
    have hq : q ∉ qs := (List.nodup_cons.mp hn).1
    rw [List.zip_cons_cons, removeHList, removeH, if_pos rfl,
      removeH_of_notKey (notKey_zip hq)]
    exact ih (List.nodup_cons.mp hn).2 (by simpa using hl)

/-! ### Well-formedness -/

lemma Heap.wf_notKey {h : Heap} (hw : h.wf) {p : Nat} (hp : h.next ≤ p) :
    NotKey h.mem p := by
  intro e he hk
  have := hw e he
  omega

lemma wf_removeH {m : List (Nat × NativeVal)} {n : Nat}
    (hw : (⟨m, n⟩ : Heap).wf) (p : Nat) : (⟨removeH m p, n⟩ : Heap).wf :=
  fun e he => hw e (mem_removeH he)

lemma wf_next_mono {m : List (Nat × NativeVal)} {n n' : Nat}
    (hw : (⟨m, n⟩ : Heap).wf) (hle : n ≤ n') : (⟨m, n'⟩ : Heap).wf := by
  intro e he
  have : e.1 < n := hw e he
  show e.1 < n'
  omega

lemma wf_append_one {h : Heap} (hw : h.wf) (v : NativeVal) :
    (⟨h.mem ++ [(h.next, v)], h.next + 1⟩ : Heap).wf := by
  intro e he
  have he1 : e ∈ h.mem ++ [(h.next, v)] := he
  show e.1 < h.next + 1
  rcases List.mem_append.mp he1 with h1 | h1
  · have := hw e h1
    omega
  · have : e = (h.next, v) := by simpa using h1
    rw [this]
    omega

/-! ### Induction over the nested value type -/

def IValue.inductionOn {P : IValue → Prop}
    (hnone : P .none) (htensor : ∀ t, P (.tensor t)) (hdouble : ∀ f, P (.double f))
    (hint : ∀ i, P (.int i)) (hbool : ∀ b, P (.bool b))
    (htuple : ∀ vs, (∀ v ∈ vs, P v) → P (.tuple vs))
    (hstring : ∀ s, P (.string s)) : ∀ v, P v
  | .none => hnone
  | .tensor t => htensor t
  | .double f => hdouble f
  | .int i => hint i
  | .bool b => hbool b
  | .tuple vs => htuple vs (fun v hv =>
      IValue.inductionOn hnone htensor hdouble hint hbool htuple hstring v)
  | .string s => hstring s
termination_by v => sizeOf v
decreasing_by
  have h1 := List.sizeOf_lt_of_mem hv
  simp only [IValue.tuple.sizeOf_spec]
  omega

/-! ### Weights -/

lemma totalWt_append (a b : List (Nat × NativeVal)) :
    totalWt (a ++ b) = totalWt a + totalWt b := by
  induction a with
  | nil => rw [List.nil_append, totalWt]; omega
  | cons e a ih => rw [List.cons_append, totalWt, totalWt, ih]; omega

lemma nwt_le_totalWt_of_lookup {m : List (Nat × NativeVal)} {p : Nat} {v : NativeVal}
    (h : lookupH m p = some v) : nwt v ≤ totalWt m := by
  induction m with
  | nil => rw [lookupH] at h; exact absurd h (by simp)
  | cons e m ih =>
    obtain ⟨k, w⟩ := e
    rw [lookupH] at h
    rw [totalWt]
    have hred : ((k, w) : Nat × NativeVal).2 = w := rfl
    rw [hred]
    by_cases hk : k = p
    · rw [if_pos hk] at h
      obtain rfl : w = v := by simpa using h
      omega
    · rw [if_neg hk] at h
      have := ih h
      omega

lemma wt_pos (v : IValue) : 1 ≤ wt v := by
  cases v <;> rw [wt] <;> omega

lemma wt_le_wtL_of_mem {v : IValue} {vs : List IValue} (h : v ∈ vs) :
    wt v ≤ wtL vs := by
  induction vs with
  | nil => exact absurd h (by simp)
  | cons w vs ih =>
    rw [wtL]
    rcases List.mem_cons.mp h with rfl | h1
    · omega
    · have := ih h1
      omega

lemma encodeL_length (vs : List IValue) : (encodeL vs).length = vs.length := by
  induction vs with
  | nil => rfl
  | cons v vs ih => rw [encodeL, List.length_cons, List.length_cons, ih]

lemma nwt_encode : ∀ v, nwt (encode v) = wt v := by
  apply IValue.inductionOn
  · rw [encode, nwt, wt]
  · intro t; rw [encode, nwt, wt]
  · intro f; rw [encode, nwt, wt]
  · intro i; rw [encode, nwt, wt]
  · intro b; rw [encode, nwt, wt]
  · intro vs ih
    rw [encode, nwt, wt]
    have : ∀ ws, (∀ v ∈ ws, nwt (encode v) = wt v) → nwtL (encodeL ws) = wtL ws := by
      intro ws
      induction ws with
      | nil => intro _; rw [encodeL, nwtL, wtL]
      | cons w ws ihl =>
        intro hws
        rw [encodeL, nwtL, wtL, hws w (by simp), ihl (fun v hv => hws v (by simp [hv]))]
    rw [this vs ih]
  · intro s; rw [encode, nwt, wt]

/-! ### Native allocation and free runs -/

lemma allocList_spec (ws : List NativeVal) : ∀ (h : Heap),
    allocList ws h =
      (List.range' h.next ws.length,
       ⟨h.mem ++ (List.range' h.next ws.length).zip ws, h.next + ws.length⟩) := by
  induction ws with
  | nil =>
    intro h
    rw [allocList]
    simp
  | cons w ws ih =>
    intro h
    rw [allocList]
    simp only [Heap.alloc, ih, List.length_cons, List.range'_succ, List.zip_cons_cons]
    refine Prod.ext rfl ?_
    refine congrArg₂ Heap.mk ?_ (by omega)
    rw [List.append_assoc, List.singleton_append]

lemma readVals_zip : ∀ (qs : List Nat) (ws : List NativeVal)
    (a : List (Nat × NativeVal)) (n : Nat),
    qs.Nodup → (∀ q ∈ qs, NotKey a q) → qs.length = ws.length →
    readVals qs ⟨a ++ qs.zip ws, n⟩ = some ws := by
  intro qs
  induction qs with
  | nil =>
    intro ws a n _ _ hl
    obtain rfl : ws = [] := by
      cases ws with
      | nil => rfl
      | cons w ws => simp at hl
    rw [readVals]
  | cons q qs ih =>
    intro ws a n hn ha hl
    obtain ⟨w, ws, rfl⟩ : ∃ w ws', ws = w :: ws' := by
      cases ws with
      | nil => simp at hl
      | cons w ws => exact ⟨w, ws, rfl⟩
    rw [List.zip_cons_cons, readVals]
    have hq : lookupH (a ++ ((q, w) :: qs.zip ws)) q = some w := by
      rw [lookupH_append_right _ (ha q (by simp)), lookupH, if_pos rfl]
    have hmem : a ++ ((q, w) :: qs.zip ws) = (a ++ [(q, w)]) ++ qs.zip ws := by
      rw [List.append_assoc, List.singleton_append]
    have htail : readVals qs ⟨a ++ ((q, w) :: qs.zip ws), n⟩ = some ws := by
      rw [hmem]
      refine ih ws (a ++ [(q, w)]) n (List.nodup_cons.mp hn).2 ?_ (by simpa using hl)
      intro q' hq'
      refine notKey_append (ha q' (by simp [hq'])) ?_
      intro e he
      have he2 : e = (q, w) := by simpa using he
      rw [he2]
      intro hqq
      have hqe : q = q' := hqq
      exact (List.nodup_cons.mp hn).1 (by rw [hqe]; exact hq')
    rw [hq, htail]

lemma freeList_zip : ∀ (qs : List Nat) (ws : List NativeVal)
    (a b : List (Nat × NativeVal)) (n : Nat),
    qs.Nodup → (∀ q ∈ qs, NotKey a q) → (∀ q ∈ qs, NotKey b q) →
    qs.length = ws.length →
    freeList qs ⟨a ++ (qs.zip ws ++ b), n⟩ = (.ok (), ⟨a ++ b, n⟩) := by
  intro qs
  induction qs with
  | nil =>
    intro ws a b n _ _ _ hl
    obtain rfl : ws = [] := by
      cases ws with
      | nil => rfl
      | cons w ws => simp at hl
    rw [List.zip_nil_left, List.nil_append, freeList]
  | cons q qs ih =>
    intro ws a b n hn ha hb hl
    obtain ⟨w, ws, rfl⟩ : ∃ w ws', ws = w :: ws' := by
      cases ws with
      | nil => simp at hl
      | cons w ws => exact ⟨w, ws, rfl⟩
    have hq : q ∉ qs := (List.nodup_cons.mp hn).1
    rw [List.zip_cons_cons, freeList, atiFree]
    have hlook : lookupH (a ++ ((q, w) :: qs.zip ws ++ b)) q = some w := by
      rw [lookupH_append_right _ (ha q (by simp)), List.cons_append, lookupH, if_pos rfl]
    rw [hlook]
    have hrem : removeH (a ++ ((q, w) :: qs.zip ws ++ b)) q
        = a ++ (qs.zip ws ++ b) := by
      rw [removeH_append, removeH_of_notKey (ha q (by simp)), List.cons_append,
        removeH, if_pos rfl, removeH_append,
        removeH_of_notKey (notKey_zip hq), removeH_of_notKey (hb q (by simp))]
    rw [hrem]
    exact ih ws a b n (List.nodup_cons.mp hn).2
      (fun q' hq' => ha q' (by simp [hq'])) (fun q' hq' => hb q' (by simp [hq']))
      (by simpa using hl)


lemma readVals_of_layout {h : Heap} {ps : List Nat} {ws : List NativeVal} {h1 : Heap}
    (hw : h.wf) (hm1 : h1.mem = h.mem ++ ps.zip ws) (hnd : ps.Nodup)
    (hlo : ∀ q ∈ ps, h.next ≤ q) (hlen : ps.length = ws.length) :
    readVals ps h1 = some ws := by
  obtain ⟨m, n⟩ := h1
  have hm1' : m = h.mem ++ ps.zip ws := hm1
  subst hm1'
  exact readVals_zip ps ws h.mem n hnd
    (fun q hq => Heap.wf_notKey hw (hlo q hq)) hlen

lemma freeList_of_layout {h : Heap} {ps : List Nat} {ws : List NativeVal} {h1 : Heap}
    (w : NativeVal) (hw : h.wf) (hm1 : h1.mem = h.mem ++ ps.zip ws) (hnd : ps.Nodup)
    (hlo : ∀ q ∈ ps, h.next ≤ q ∧ q < h1.next) (hlen : ps.length = ws.length) :
    freeList ps ⟨h1.mem ++ [(h1.next, w)], h1.next + 1⟩
      = (.ok (), ⟨h.mem ++ [(h1.next, w)], h1.next + 1⟩) := by
  obtain ⟨m, n⟩ := h1
  have hm1' : m = h.mem ++ ps.zip ws := hm1
  subst hm1'
  rw [List.append_assoc]
  refine freeList_zip ps ws h.mem [(n, w)] (n + 1) hnd
    (fun q hq => Heap.wf_notKey hw (hlo q hq).1) ?_ hlen
  intro q hq e he
  have he2 : e = (n, w) := by simpa using he
  rw [he2]
  have : q < n := (hlo q hq).2
  show n ≠ q
  omega

/-! ### Shape of successful `to_c` runs -/

/-- What a successful `to_c` run does to the store: it appends exactly one
new live handle, holding the encoding of the converted value, and leaves
every pre-existing handle untouched. -/
def ToCOk (v : IValue) : Prop :=
  ∀ h p h', h.wf → toC v h = (.ok p, h') →
    h'.mem = h.mem ++ [(p, encode v)] ∧ h.next ≤ p ∧ p < h'.next ∧ h'.wf

lemma toCList_ok_aux (vs : List IValue) (IH : ∀ v ∈ vs, ToCOk v) :
    ∀ h ps h', h.wf → toCList vs h = (.ok ps, h') →
      h'.mem = h.mem ++ ps.zip (encodeL vs) ∧ ps.length = vs.length ∧ ps.Nodup ∧
      (∀ q ∈ ps, h.next ≤ q ∧ q < h'.next) ∧ h.next ≤ h'.next ∧ h'.wf := by
  induction vs with
  | nil =>
    intro h ps h' hw hr
    rw [toCList] at hr
    simp only [Prod.mk.injEq, Except.ok.injEq] at hr
    obtain ⟨rfl, rfl⟩ := hr
    refine ⟨by simp [encodeL], rfl, List.nodup_nil, ?_, le_refl _, hw⟩
    intro q hq
    simp at hq
  | cons v vs ih =>
    intro h ps h' hw hr
    rw [toCList] at hr
    split at hr
    · exact absurd hr (by simp)
    · rename_i p1 h1 heq1
      split at hr
      · exact absurd hr (by simp)
      · rename_i ps2 h2 heq2
        simp only [Prod.mk.injEq, Except.ok.injEq] at hr
        obtain ⟨rfl, rfl⟩ := hr
        obtain ⟨hm1, hp1, hp1n, hwf1⟩ := IH v (by simp) h p1 h1 hw heq1
        obtain ⟨hm2, hlen2, hnd2, hrange2, hle2, hwf2⟩ :=
          ih (fun w hwm => IH w (by simp [hwm])) h1 ps2 h2 hwf1 heq2
        refine ⟨?_, by simp [hlen2], ?_, ?_, by omega, hwf2⟩
        · rw [hm2, hm1, List.append_assoc, encodeL, List.zip_cons_cons,
            List.singleton_append]
        · refine List.nodup_cons.mpr ⟨?_, hnd2⟩
          intro hmem
          have := (hrange2 p1 hmem).1
          omega
        · intro q hq
          rcases List.mem_cons.mp hq with rfl | hq2
          · exact ⟨hp1, by omega⟩
          · have := hrange2 q hq2
            exact ⟨by omega, this.2⟩

lemma toC_ok : ∀ v, ToCOk v := by
  apply IValue.inductionOn
  · intro h p h' hw hr
    simp only [toC, atiNone, Heap.alloc, Prod.mk.injEq, Except.ok.injEq] at hr
    obtain ⟨rfl, rfl⟩ := hr
    exact ⟨by simp [encode], le_refl _, Nat.lt_succ_self _, wf_append_one hw _⟩
  · intro t h p h' hw hr
    simp only [toC, atiTensor, Heap.alloc, Prod.mk.injEq, Except.ok.injEq] at hr
    obtain ⟨rfl, rfl⟩ := hr
    exact ⟨by simp [encode], le_refl _, Nat.lt_succ_self _, wf_append_one hw _⟩
  · intro f h p h' hw hr
    simp only [toC, atiDouble, Heap.alloc, Prod.mk.injEq, Except.ok.injEq] at hr
    obtain ⟨rfl, rfl⟩ := hr
    exact ⟨by simp [encode], le_refl _, Nat.lt_succ_self _, wf_append_one hw _⟩
  · intro i h p h' hw hr
    simp only [toC, atiInt, Heap.alloc, Prod.mk.injEq, Except.ok.injEq] at hr
    obtain ⟨rfl, rfl⟩ := hr
    exact ⟨by simp [encode], le_refl _, Nat.lt_succ_self _, wf_append_one hw _⟩
  · intro b h p h' hw hr
    simp only [toC, atiBool, Heap.alloc, Prod.mk.injEq, Except.ok.injEq] at hr
    obtain ⟨rfl, rfl⟩ := hr
    exact ⟨by simp [encode], le_refl _, Nat.lt_succ_self _, wf_append_one hw _⟩
  · intro vs IH h p h' hw hr
    rw [toC] at hr
    split at hr
    · exact absurd hr (by simp)
    · rename_i ps h1 heq1
      obtain ⟨hm1, hlen, hnd, hrange, hle1, hwf1⟩ := toCList_ok_aux vs IH h ps h1 hw heq1
      have hrv : readVals ps h1 = some (encodeL vs) :=
        readVals_of_layout hw hm1 hnd (fun q hq => (hrange q hq).1)
          (by rw [hlen, encodeL_length])
      have hfl := freeList_of_layout (.ntuple (encodeL vs)) hw hm1 hnd hrange
        (by rw [hlen, encodeL_length])
      rw [atiTuple, hrv] at hr
      simp only [Heap.alloc] at hr
      rw [hfl] at hr
      simp only [Prod.mk.injEq, Except.ok.injEq] at hr
      obtain ⟨rfl, rfl⟩ := hr
      refine ⟨by simp [encode], by omega, Nat.lt_succ_self _, ?_⟩
      exact wf_append_one (h := ⟨h.mem, h1.next⟩) (wf_next_mono hw (by omega)) _
  · intro s h p h' hw hr
    rw [toC] at hr
    split at hr
    · exact absurd hr (by simp)
    · rename_i hns
      simp only [atiString, Heap.alloc, Prod.mk.injEq, Except.ok.injEq] at hr
      obtain ⟨rfl, rfl⟩ := hr
      exact ⟨by simp [encode], le_refl _, Nat.lt_succ_self _, wf_append_one hw _⟩

/-! ### Totality of `to_c` on null-free values -/

/-- `to_c` succeeds on every value whose strings have no embedded nulls. -/
def ToCTotal (v : IValue) : Prop :=
  ∀ h, h.wf → noNulls v = true → ∃ p h', toC v h = (.ok p, h')

lemma toCList_total_aux (vs : List IValue) (IH : ∀ v ∈ vs, ToCTotal v) :
    ∀ h, h.wf → noNullsL vs = true → ∃ ps h', toCList vs h = (.ok ps, h') := by
  induction vs with
  | nil =>
    intro h _ _
    exact ⟨[], h, by rw [toCList]⟩
  | cons v vs ih =>
    intro h hw hnn
    rw [noNullsL, Bool.and_eq_true] at hnn
    obtain ⟨p, h1, hp⟩ := IH v (by simp) h hw hnn.1
    have hwf1 : h1.wf := (toC_ok v h p h1 hw hp).2.2.2
    obtain ⟨ps, h2, hps⟩ := ih (fun w hwm => IH w (by simp [hwm])) h1 hwf1 hnn.2
    exact ⟨p :: ps, h2, by simp only [toCList, hp, hps]⟩

lemma toC_total : ∀ v, ToCTotal v := by
  apply IValue.inductionOn
  · intro h _ _
    exact ⟨h.next, _, rfl⟩
  · intro t h _ _
    exact ⟨h.next, _, rfl⟩
  · intro f h _ _
    exact ⟨h.next, _, rfl⟩
  · intro i h _ _
    exact ⟨h.next, _, rfl⟩
  · intro b h _ _
    exact ⟨h.next, _, rfl⟩
  · intro vs IH h hw hnn
    rw [noNulls] at hnn
    obtain ⟨ps, h1, hps⟩ := toCList_total_aux vs IH h hw hnn
    obtain ⟨hm1, hlen, hnd, hrange, hle1, hwf1⟩ :=
      toCList_ok_aux vs (fun w _ => toC_ok w) h ps h1 hw hps
    have hrv : readVals ps h1 = some (encodeL vs) :=
      readVals_of_layout hw hm1 hnd (fun q hq => (hrange q hq).1)
        (by rw [hlen, encodeL_length])
    have hfl := freeList_of_layout (NativeVal.ntuple (encodeL vs)) hw hm1 hnd hrange
      (by rw [hlen, encodeL_length])
    refine ⟨h1.next, ⟨h.mem ++ [(h1.next, NativeVal.ntuple (encodeL vs))], h1.next + 1⟩, ?_⟩
    simp only [toC, hps, atiTuple, hrv, Heap.alloc, hfl]
  · intro s h hw hnn
    rw [noNulls] at hnn
    have h0 : ¬ (0 ∈ s.val) := by simpa using hnn
    exact ⟨h.next, ⟨h.mem ++ [(h.next, NativeVal.nstring s.val)], h.next + 1⟩,
      by rw [toC, if_neg h0]; rfl⟩

/-! ### Shape of successful `of_c` runs -/

lemma tensorFreeL_mem {vs : List IValue} (h : tensorFreeL vs = true) {v : IValue}
    (hv : v ∈ vs) : tensorFree v = true := by
  induction vs with
  | nil => exact absurd hv (by simp)
  | cons w vs ih =>
    rw [tensorFreeL, Bool.and_eq_true] at h
    rcases List.mem_cons.mp hv with rfl | h2
    · exact h.1
    · exact ih h.2 h2

lemma forall2_lookup_removeH {g : List (Nat × NativeVal)} {q : Nat}
    {vs : List IValue} {qs : List Nat} (hq : q ∉ qs)
    (h : List.Forall₂ (fun v q' => lookupH g q' = some (encode v)) vs qs) :
    List.Forall₂ (fun v q' => lookupH (removeH g q) q' = some (encode v)) vs qs := by
  induction h with
  | nil => exact List.Forall₂.nil
  | cons h1 h2 ih =>
    rename_i a b l1 l2
    refine List.Forall₂.cons ?_ (ih (fun hmem => hq (by simp [hmem])))
    have hbq : b ≠ q := by
      intro hbq
      rw [← hbq] at hq
      exact hq (List.mem_cons_self b l2)
    rw [lookupH_removeH_ne hbq]
    exact h1

lemma forall2_lookup_zip : ∀ (vs : List IValue) (qs : List Nat)
    (a : List (Nat × NativeVal)),
    qs.Nodup → (∀ q ∈ qs, NotKey a q) → qs.length = vs.length →
    List.Forall₂ (fun v q => lookupH (a ++ qs.zip (encodeL vs)) q = some (encode v))
      vs qs := by
  intro vs
  induction vs with
  | nil =>
    intro qs a _ _ hl
    obtain rfl : qs = [] := List.length_eq_zero.mp hl
    exact List.Forall₂.nil
  | cons v vs ih =>
    intro qs a hnd ha hl
    obtain ⟨q, qs2, rfl⟩ : ∃ q qs2, qs = q :: qs2 := by
      cases qs with
      | nil => simp at hl
      | cons q qs2 => exact ⟨q, qs2, rfl⟩
    rw [encodeL, List.zip_cons_cons]
    refine List.Forall₂.cons ?_ ?_
    · rw [lookupH_append_right _ (ha q (by simp)), lookupH, if_pos rfl]
    · have htail := ih qs2 (a ++ [(q, encode v)]) (List.nodup_cons.mp hnd).2 ?_
        (by simpa using hl)
      · rw [List.append_assoc, List.singleton_append] at htail
        exact htail
      · intro q' hq'
        refine notKey_append (ha q' (by simp [hq'])) ?_
        intro e he
        have he2 : e = (q, encode v) := by simpa using he
        rw [he2]
        intro hqq
        have hqe : q = q' := hqq
        exact (List.nodup_cons.mp hnd).1 (by rw [hqe]; exact hq')

lemma mapState_spec (f : Nat → Heap → Except Failure IValue × Heap) :
    ∀ (vs : List IValue) (qs : List Nat) (g : Heap),
    g.wf → qs.Nodup →
    List.Forall₂ (fun v q => lookupH g.mem q = some (encode v)) vs qs →
    (∀ v ∈ vs, ∀ q g', g'.wf → lookupH g'.mem q = some (encode v) →
      ∃ n', f q g' = (.ok v, ⟨removeH g'.mem q, n'⟩) ∧ g'.next ≤ n' ∧
        (⟨removeH g'.mem q, n'⟩ : Heap).wf) →
    ∃ n', mapState f qs g = (.ok vs, ⟨removeHList g.mem qs, n'⟩) ∧ g.next ≤ n' ∧
      (⟨removeHList g.mem qs, n'⟩ : Heap).wf := by
  intro vs
  induction vs with
  | nil =>
    intro qs g hw _ hf2 _
    cases hf2
    refine ⟨g.next, ?_, le_refl _, ?_⟩
    · rw [mapState]
      rfl
    · exact hw
  | cons v vs ih =>
    intro qs g hw hnd hf2 hf
    cases hf2 with
    | cons h1 h2 =>
      rename_i q qs2
      obtain ⟨n1, hfq, hle1, hwf1⟩ := hf v (by simp) q g hw h1
      have hq : q ∉ qs2 := (List.nodup_cons.mp hnd).1
      have hf2' := forall2_lookup_removeH hq h2
      obtain ⟨n2, hmap, hle2, hwf2⟩ := ih qs2 ⟨removeH g.mem q, n1⟩ hwf1
        (List.nodup_cons.mp hnd).2 hf2' (fun w hwm => hf w (by simp [hwm]))
      have hle2b : n1 ≤ n2 := hle2
      refine ⟨n2, ?_, by omega, ?_⟩
      · simp only [mapState, hfq, hmap, removeHList]
      · rw [removeHList]
        exact hwf2

/-- What a successful `of_c` run does: on a well-formed store holding the
encoding of a tensor-free value `v` at handle `p`, `of_c` (with enough
fuel) returns exactly `v`, removes handle `p` and every temporary child
handle it allocated, and touches nothing else. -/
def OfCOk (v : IValue) : Prop :=
  ∀ fuel p g, tensorFree v = true → g.wf → lookupH g.mem p = some (encode v) →
    wt v < fuel →
    ∃ n', ofCF fuel p g = (.ok v, ⟨removeH g.mem p, n'⟩) ∧ g.next ≤ n' ∧
      (⟨removeH g.mem p, n'⟩ : Heap).wf

lemma ofC_ok : ∀ v, OfCOk v := by
  apply IValue.inductionOn
  · intro fuel p g _ hw hlook hfuel
    rw [wt] at hfuel
    have hf0 : ¬ (fuel = 0) := by omega
    rw [encode] at hlook
    refine ⟨g.next, ?_, le_refl _, wf_removeH hw p⟩
    rw [ofCF, if_neg hf0]
    simp [atiTag, hlook, NativeVal.tag, atiFree]
  · intro t fuel p g htf
    rw [tensorFree] at htf
    exact absurd htf (by simp)
  · intro f fuel p g _ hw hlook hfuel
    rw [wt] at hfuel
    have hf0 : ¬ (fuel = 0) := by omega
    rw [encode] at hlook
    refine ⟨g.next, ?_, le_refl _, wf_removeH hw p⟩
    rw [ofCF, if_neg hf0]
    simp [atiTag, hlook, NativeVal.tag, atiToDouble, atiFree]
  · intro i fuel p g _ hw hlook hfuel
    rw [wt] at hfuel
    have hf0 : ¬ (fuel = 0) := by omega
    rw [encode] at hlook
    refine ⟨g.next, ?_, le_refl _, wf_removeH hw p⟩
    rw [ofCF, if_neg hf0]
    simp [atiTag, hlook, NativeVal.tag, atiToInt, atiFree]
  · intro b fuel p g _ hw hlook hfuel
    rw [wt] at hfuel
    have hf0 : ¬ (fuel = 0) := by omega
    rw [encode] at hlook
    refine ⟨g.next, ?_, le_refl _, wf_removeH hw p⟩
    rw [ofCF, if_neg hf0]
    cases b
    · simp [atiTag, hlook, NativeVal.tag, atiToBool, atiFree]
    · simp [atiTag, hlook, NativeVal.tag, atiToBool, atiFree]
  · intro vs IH fuel p g htf hw hlook hfuel
    rw [wt] at hfuel
    rw [tensorFree] at htf
    rw [encode] at hlook
    have hf0 : ¬ (fuel = 0) := by omega
    have hlen : (encodeL vs).length = vs.length := encodeL_length vs
    have hal := allocList_spec (encodeL vs) g
    have hqs_nd : (List.range' g.next (encodeL vs).length).Nodup :=
      List.nodup_range' _ _
    have hqs_mem : ∀ q ∈ List.range' g.next (encodeL vs).length,
        g.next ≤ q ∧ q < g.next + (encodeL vs).length := by
      intro q hq
      exact List.mem_range'_1.mp hq
    have hg1wf : (⟨g.mem ++ (List.range' g.next (encodeL vs).length).zip (encodeL vs),
        g.next + (encodeL vs).length⟩ : Heap).wf := by
      intro e he
      rcases List.mem_append.mp he with h1 | h1
      · have := hw e h1
        show e.1 < g.next + (encodeL vs).length
        omega
      · have h2 := (List.of_mem_zip h1).1
        have h3 := (hqs_mem e.1 h2).2
        show e.1 < g.next + (encodeL vs).length
        omega
    have hf2 := forall2_lookup_zip vs (List.range' g.next (encodeL vs).length) g.mem
      hqs_nd (fun q hq => Heap.wf_notKey hw (hqs_mem q hq).1)
      (by rw [List.length_range', hlen])
    have hfarg : ∀ w ∈ vs, ∀ q g', g'.wf → lookupH g'.mem q = some (encode w) →
        ∃ n', ofCF (fuel - 1) q g' = (.ok w, ⟨removeH g'.mem q, n'⟩) ∧ g'.next ≤ n' ∧
          (⟨removeH g'.mem q, n'⟩ : Heap).wf := by
      intro w hwm q g' hw' hlook'
      have hwt : wt w < fuel - 1 := by
        have := wt_le_wtL_of_mem hwm
        omega
      exact IH w hwm (fuel - 1) q g' (tensorFreeL_mem htf hwm) hw' hlook' hwt
    obtain ⟨n2, hmap, hle2, hwf2⟩ := mapState_spec (fun q hh => ofCF (fuel - 1) q hh)
      vs (List.range' g.next (encodeL vs).length)
      ⟨g.mem ++ (List.range' g.next (encodeL vs).length).zip (encodeL vs),
        g.next + (encodeL vs).length⟩
      hg1wf hqs_nd hf2 hfarg
    have hrem : removeHList
        (g.mem ++ (List.range' g.next (encodeL vs).length).zip (encodeL vs))
        (List.range' g.next (encodeL vs).length) = g.mem := by
      rw [removeHList_append,
        removeHList_of_notKey (fun q hq => Heap.wf_notKey hw (hqs_mem q hq).1),
        removeHList_zip_self hqs_nd (by rw [List.length_range']), List.append_nil]
    simp only [hrem] at hmap hwf2
    have hle2b : g.next + (encodeL vs).length ≤ n2 := hle2
    refine ⟨n2, ?_, by omega, ?_⟩
    · rw [ofCF, if_neg hf0]
      norm_num [atiTag, hlook, NativeVal.tag, atiTupleLength, atiToTuple, hal,
        hmap, atiFree]
    · exact wf_removeH hwf2 p
  · intro s fuel p g _ hw hlook hfuel
    rw [wt] at hfuel
    have hf0 : ¬ (fuel = 0) := by omega
    rw [encode] at hlook
    refine ⟨g.next, ?_, le_refl _, wf_removeH hw p⟩
    rw [ofCF, if_neg hf0]
    simp [atiTag, hlook, NativeVal.tag, atiToString, ptrToString, s.prop, atiFree]

/-! ### The claims -/

/-- C1 (counterexample): the round-trip law as stated — for *every* IValue
without a Tensor variant the conversion to native and back yields the value
back — fails at the tensor-free value `String "\x00"` (the one-byte string
holding a null): `to_c` rejects it with the embedded-null conversion error,
so no round-trip value exists at all for this input. -/
theorem ivalue_roundtrip_counterexample :
    tensorFree (.string ⟨[0], by rfl⟩) = true ∧
    toC (.string ⟨[0], by rfl⟩) ⟨[], 0⟩ = (.error .nulError, ⟨[], 0⟩) :=
  ⟨by rfl, by rfl⟩

/-- C1 (amended): for every IValue `v` that contains no Tensor variant and
whose String components contain no embedded null byte, starting from any
well-formed native store, `to_c` succeeds and `of_c` on the produced handle
returns a value structurally identical to `v` — tag, element order and leaf
values preserved exactly — and the store returns to its initial set of live
handles (the round trip consumes every handle it created). -/
theorem ivalue_roundtrip (v : IValue) (h : Heap) (h1 : tensorFree v = true)
    (h2 : noNulls v = true) (hw : h.wf) :
    ∃ p h' h'', toC v h = (.ok p, h') ∧ ofC p h' = (.ok v, h'') ∧ h''.mem = h.mem := by
  obtain ⟨p, h', hp⟩ := toC_total v h hw h2
  obtain ⟨hm, hple, hplt, hwf'⟩ := toC_ok v h p h' hw hp
  have hlook : lookupH h'.mem p = some (encode v) := by
    rw [hm, lookupH_append_right _ (Heap.wf_notKey hw hple), lookupH, if_pos rfl]
  have hfuel : wt v < totalWt h'.mem + 1 := by
    have := nwt_le_totalWt_of_lookup hlook
    rw [nwt_encode] at this
    omega
  obtain ⟨n', hof, hle, hwf2⟩ := ofC_ok v (totalWt h'.mem + 1) p h' h1 hwf' hlook hfuel
  refine ⟨p, h', ⟨removeH h'.mem p, n'⟩, hp, ?_, ?_⟩
  · rw [ofC]
    exact hof
  · show removeH h'.mem p = h.mem
    rw [hm, removeH_append, removeH_of_notKey (Heap.wf_notKey hw hple), removeH,
      if_pos rfl, removeH, List.append_nil]

/-- C1 (witness): the amended round-trip law at the canonical value
`Tuple([Int(42), Double(3.1415)])` (3.1415 given by its IEEE bit pattern)
on the empty store. -/
theorem ivalue_roundtrip_witness :
    tensorFree (.tuple [.int 42, .double (.num 0x400921CAC083126F)]) = true ∧
    ∃ p h' h'',
      toC (.tuple [.int 42, .double (.num 0x400921CAC083126F)]) ⟨[], 0⟩ = (.ok p, h') ∧
      ofC p h' = (.ok (.tuple [.int 42, .double (.num 0x400921CAC083126F)]), h'') ∧
      h''.mem = [] :=
  ⟨by rfl, ivalue_roundtrip _ ⟨[], 0⟩ (by rfl) (by rfl) (by decide)⟩

/-- C2 (code bug): `of_c` does *not* free its input handle on error paths,
contrary to the claim, the spec and its own comment (`jit.rs` line 48).
The `ati_free` at line 82 sits after the dispatch `match`, so each early
`?` return skips it.  Evaluating the model at the three claimed inputs: an
unrecognized tag (6), a negative bool encoding (-1), and a tuple whose
element has an unrecognized tag (7) — in every case the error is returned
with the input handle (and, in the tuple case, the freshly allocated child
handle too) still live in the store. -/
theorem of_c_error_paths_leak_input :
    ofC 0 ⟨[(0, .nother 6)], 1⟩ = (.error (.tagErr 6), ⟨[(0, .nother 6)], 1⟩) ∧
    ofC 0 ⟨[(0, .nbool (-1))], 1⟩ = (.error (.boolErr (-1)), ⟨[(0, .nbool (-1))], 1⟩) ∧
    ofC 0 ⟨[(0, .ntuple [.nother 7])], 1⟩ =
      (.error (.tagErr 7), ⟨[(0, .ntuple [.nother 7]), (1, .nother 7)], 2⟩) := by
  refine ⟨?_, ?_, ?_⟩
  · rw [ofC]
    show ofCF 2 0 ⟨[(0, NativeVal.nother 6)], 1⟩ = _
    rw [ofCF]
    norm_num [atiTag, lookupH, NativeVal.tag]
  · rw [ofC]
    show ofCF 2 0 ⟨[(0, NativeVal.nbool (-1))], 1⟩ = _
    rw [ofCF]
    norm_num [atiTag, lookupH, NativeVal.tag, atiToBool]
  · rw [ofC]
    show ofCF 3 0 ⟨[(0, NativeVal.ntuple [NativeVal.nother 7])], 1⟩ = _
    rw [ofCF]
    norm_num [atiTag, lookupH, NativeVal.tag, atiTupleLength, atiToTuple,
      allocList, Heap.alloc, mapState]
    rw [ofCF]
    norm_num [atiTag, lookupH, NativeVal.tag]

/-- C3 (code bug): in `to_c` of a tuple, when a later element's conversion
fails, the native handles already produced for earlier elements are *not*
released: the `collect::<Fallible<_>>()?` at `jit.rs` line 31 drops the raw
pointers without freeing them.  Evaluating the model at
`Tuple([Int(1), String "\x00"])` from the empty store: the conversion fails
with the embedded-null error while the handle created for `Int(1)` is still
live — the store does not return to baseline. -/
theorem to_c_tuple_partial_failure_leaks :
    toC (.tuple [.int 1, .string ⟨[0], by rfl⟩]) ⟨[], 0⟩ =
      (.error .nulError, ⟨[(0, .nint 1)], 1⟩) := by rfl

/-- A module whose native forward call always fails. -/
def failingModule : CModule := ⟨fun _ => Option.none⟩

/-- A module whose native forward call always returns the none value. -/
def constantModule : CModule := ⟨fun _ => some .nnone⟩

/-- C4 (code bug): `forward_is` does *not* release the temporary argument
handles on failure paths.  The free loop at `jit.rs` lines 130-132 runs
only after both the argument conversion (`?` at line 127) and the native
forward call (error check at line 129) have succeeded.  Evaluating the
model: with a failing native call and argument `[Int(1)]`, the error
returns with the argument handle still live; with an argument list whose
second element is an embedded-null string, the conversion error returns
with the first argument's handle still live. -/
theorem forward_is_leaks :
    forwardIs failingModule [.int 1] ⟨[], 0⟩ =
      (.error .torchErr, ⟨[(0, .nint 1)], 1⟩) ∧
    forwardIs constantModule [.int 1, .string ⟨[0], by rfl⟩] ⟨[], 0⟩ =
      (.error .nulError, ⟨[(0, .nint 1)], 1⟩) :=
  ⟨by rfl, by rfl⟩

/-- C5: `of_c` dispatches on the integer tag exactly per the table —
tag 0 yields None, 1 Tensor, 2 Double, 3 Int, 4 Bool (for any non-negative
native encoding), 5 Tuple, 9 String (for any valid text payload) — and on
a handle holding a native value with any other tag it returns the
unrecognized-tag error carrying that tag, producing no value (and, per the
free-skipping behaviour of C2, leaving the handle live). -/
theorem of_c_tag_dispatch :
    (ofC 0 ⟨[(0, .nnone)], 1⟩ = (.ok .none, ⟨[], 1⟩)) ∧
    (∀ t, ofC 0 ⟨[(0, .ntensor t)], 1⟩ = (.ok (.tensor t), ⟨[], 1⟩)) ∧
    (∀ f, ofC 0 ⟨[(0, .ndouble f)], 1⟩ = (.ok (.double f), ⟨[], 1⟩)) ∧
    (∀ i, ofC 0 ⟨[(0, .nint i)], 1⟩ = (.ok (.int i), ⟨[], 1⟩)) ∧
    (∀ b : Int, 0 ≤ b → ofC 0 ⟨[(0, .nbool b)], 1⟩ = (.ok (.bool (b != 0)), ⟨[], 1⟩)) ∧
    (ofC 0 ⟨[(0, .ntuple [])], 1⟩ = (.ok (.tuple []), ⟨[], 1⟩)) ∧
    (∀ s : Str, ofC 0 ⟨[(0, .nstring s.val)], 1⟩ = (.ok (.string s), ⟨[], 1⟩)) ∧
    (∀ t : Int, t ≠ 0 → t ≠ 1 → t ≠ 2 → t ≠ 3 → t ≠ 4 → t ≠ 5 → t ≠ 9 →
      ofC 0 ⟨[(0, .nother t)], 1⟩ = (.error (.tagErr t), ⟨[(0, .nother t)], 1⟩)) := by
  refine ⟨?_, ?_, ?_, ?_, ?_, ?_, ?_, ?_⟩
  · rw [ofC]
    show ofCF 2 0 ⟨[(0, NativeVal.nnone)], 1⟩ = _
    rw [ofCF]
    norm_num [atiTag, lookupH, NativeVal.tag, atiFree, removeH]
  · intro t
    rw [ofC]
    show ofCF 2 0 ⟨[(0, NativeVal.ntensor t)], 1⟩ = _
    rw [ofCF]
    norm_num [atiTag, lookupH, NativeVal.tag, atiToTensor, atiFree, removeH]
  · intro f
    rw [ofC]
    show ofCF 2 0 ⟨[(0, NativeVal.ndouble f)], 1⟩ = _
    rw [ofCF]
    norm_num [atiTag, lookupH, NativeVal.tag, atiToDouble, atiFree, removeH]
  · intro i
    rw [ofC]
    show ofCF 2 0 ⟨[(0, NativeVal.nint i)], 1⟩ = _
    rw [ofCF]
    norm_num [atiTag, lookupH, NativeVal.tag, atiToInt, atiFree, removeH]
  · intro b hb
    have hnb : ¬ (b < 0) := by omega
    rw [ofC]
    show ofCF 2 0 ⟨[(0, NativeVal.nbool b)], 1⟩ = _
    rw [ofCF]
    norm_num [atiTag, lookupH, NativeVal.tag, atiToBool, hnb, atiFree, removeH]
  · rw [ofC]
    show ofCF 2 0 ⟨[(0, NativeVal.ntuple [])], 1⟩ = _
    rw [ofCF]
    norm_num [atiTag, lookupH, NativeVal.tag, atiTupleLength, atiToTuple,
      allocList, mapState, atiFree, removeH]
  · intro s
    rw [ofC]
    show ofCF 2 0 ⟨[(0, NativeVal.nstring s.val)], 1⟩ = _
    rw [ofCF]
    norm_num [atiTag, lookupH, NativeVal.tag, atiToString, ptrToString, s.prop,
      atiFree, removeH]
  · intro t h0 h1 h2 h3 h4 h5 h9
    rw [ofC]
    show ofCF 2 0 ⟨[(0, NativeVal.nother t)], 1⟩ = _
    rw [ofCF]
    norm_num [atiTag, lookupH, NativeVal.tag, h0, h1, h2, h3, h4, h5, h9]

/-- C5 (witness): the dispatch at tag 4 with native encoding 1 and at the
foreign tag 8. -/
theorem of_c_tag_dispatch_witness :
    ofC 0 ⟨[(0, .nbool 1)], 1⟩ = (.ok (.bool ((1 : Int) != 0)), ⟨[], 1⟩) ∧
    ofC 0 ⟨[(0, .nother 8)], 1⟩ = (.error (.tagErr 8), ⟨[(0, .nother 8)], 1⟩) :=
  ⟨of_c_tag_dispatch.2.2.2.2.1 1 (by norm_num),
   of_c_tag_dispatch.2.2.2.2.2.2.2 8 (by norm_num) (by norm_num) (by norm_num)
     (by norm_num) (by norm_num) (by norm_num) (by norm_num)⟩

/-- C6 (counterexample): the clause that values other than 0 and 1 are
never silently coerced to a boolean is false: on a native bool read
returning 2, `of_c` silently returns `Bool(true)` — the `ensure!` at
`jit.rs` line 61 only rejects negative values, and `b != 0` coerces every
positive value to `true`. -/
theorem bool_coercion_counterexample :
    ofC 0 ⟨[(0, .nbool 2)], 1⟩ = (.ok (.bool true), ⟨[], 1⟩) := by
  rw [ofC]
  show ofCF 2 0 ⟨[(0, NativeVal.nbool 2)], 1⟩ = _
  rw [ofCF]
  norm_num [atiTag, lookupH, NativeVal.tag, atiToBool, atiFree, removeH]

/-- C6 (amended): `to_c` encodes `Bool(true)` as native 1 and `Bool(false)`
as native 0; `of_c` on tag 4 surfaces any negative native value as the
recoverable unexpected-bool-encoding error (an `Err` return, never a
panic), decodes 0 to `Bool(false)`, and coerces every other non-negative
value — 1, but also any larger value — to `Bool(true)` via `b != 0`. -/
theorem bool_contract (b : Int) (h : Heap) :
    (toC (.bool true) h = (.ok h.next, ⟨h.mem ++ [(h.next, .nbool 1)], h.next + 1⟩)) ∧
    (toC (.bool false) h = (.ok h.next, ⟨h.mem ++ [(h.next, .nbool 0)], h.next + 1⟩)) ∧
    (b < 0 → ofC 0 ⟨[(0, .nbool b)], 1⟩ = (.error (.boolErr b), ⟨[(0, .nbool b)], 1⟩)) ∧
    (0 ≤ b → ofC 0 ⟨[(0, .nbool b)], 1⟩ = (.ok (.bool (b != 0)), ⟨[], 1⟩)) := by
  refine ⟨by rfl, by rfl, ?_, ?_⟩
  · intro hb
    rw [ofC]
    show ofCF 2 0 ⟨[(0, NativeVal.nbool b)], 1⟩ = _
    rw [ofCF]
    norm_num [atiTag, lookupH, NativeVal.tag, atiToBool, hb]
  · intro hb
    have hnb : ¬ (b < 0) := by omega
    rw [ofC]
    show ofCF 2 0 ⟨[(0, NativeVal.nbool b)], 1⟩ = _
    rw [ofCF]
    norm_num [atiTag, lookupH, NativeVal.tag, atiToBool, hnb, atiFree, removeH]

/-- C6 (witness): the amended contract at `true` on the empty store, at the
negative native read -2, and at the coerced native read 2. -/
theorem bool_contract_witness :
    toC (.bool true) ⟨[], 0⟩ = (.ok 0, ⟨[(0, .nbool 1)], 1⟩) ∧
    ofC 0 ⟨[(0, .nbool (-2))], 1⟩ = (.error (.boolErr (-2)), ⟨[(0, .nbool (-2))], 1⟩) ∧
    ofC 0 ⟨[(0, .nbool 2)], 1⟩ = (.ok (.bool ((2 : Int) != 0)), ⟨[], 1⟩) :=
  ⟨(bool_contract 2 ⟨[], 0⟩).1,
   (bool_contract (-2) ⟨[], 0⟩).2.2.1 (by norm_num),
   (bool_contract 2 ⟨[], 0⟩).2.2.2 (by norm_num)⟩

/-- C7: `to_c` of a String fails with the invalid-string conversion error
exactly when the text contains an embedded null byte — nothing is
truncated, no handle is created, the store is untouched; on any null-free
text it stores the exact bytes of the string in the native value, and
`of_c` on the produced handle returns the identical string, byte for byte,
consuming the handle. -/
theorem string_contract (s : Str) (h : Heap) (hw : h.wf) :
    (0 ∈ s.val → toC (.string s) h = (.error .nulError, h)) ∧
    (0 ∉ s.val →
      toC (.string s) h =
        (.ok h.next, ⟨h.mem ++ [(h.next, .nstring s.val)], h.next + 1⟩) ∧
      ∃ n', ofC h.next ⟨h.mem ++ [(h.next, .nstring s.val)], h.next + 1⟩ =
        (.ok (.string s), ⟨h.mem, n'⟩)) := by
  constructor
  · intro h0
    rw [toC, if_pos h0]
  · intro h0
    refine ⟨by rw [toC, if_neg h0]; rfl, ?_⟩
    have hw1 : (⟨h.mem ++ [(h.next, NativeVal.nstring s.val)], h.next + 1⟩ : Heap).wf :=
      wf_append_one hw _
    have hlook : lookupH (h.mem ++ [(h.next, NativeVal.nstring s.val)]) h.next
        = some (encode (.string s)) := by
      rw [lookupH_append_right _ (Heap.wf_notKey hw (le_refl _)), lookupH,
        if_pos rfl, encode]
    have hfuel : wt (.string s)
        < totalWt (h.mem ++ [(h.next, NativeVal.nstring s.val)]) + 1 := by
      have := nwt_le_totalWt_of_lookup hlook
      rw [nwt_encode] at this
      omega
    obtain ⟨n', hof, _, _⟩ := ofC_ok (.string s)
      (totalWt (h.mem ++ [(h.next, NativeVal.nstring s.val)]) + 1)
      h.next ⟨h.mem ++ [(h.next, NativeVal.nstring s.val)], h.next + 1⟩
      (by rfl) hw1 hlook hfuel
    have hre : removeH (h.mem ++ [(h.next, NativeVal.nstring s.val)]) h.next
        = h.mem := by
      rw [removeH_append, removeH_of_notKey (Heap.wf_notKey hw (le_refl _)),
        removeH, if_pos rfl, removeH, List.append_nil]
    refine ⟨n', ?_⟩
    rw [ofC]
    show ofCF (totalWt (h.mem ++ [(h.next, NativeVal.nstring s.val)]) + 1)
      h.next _ = _
    rw [hof, hre]

/-- C7 (witness): the string contract at the two-byte text "hi" on the
empty store. -/
theorem string_contract_witness :
    toC (.string ⟨[104, 105], by rfl⟩) ⟨[], 0⟩ =
      (.ok 0, ⟨[(0, .nstring [104, 105])], 1⟩) ∧
    ∃ n', ofC 0 ⟨[(0, .nstring [104, 105])], 1⟩ =
      (.ok (.string ⟨[104, 105], by rfl⟩), ⟨[], n'⟩) :=
  ⟨((string_contract ⟨[104, 105], by rfl⟩ ⟨[], 0⟩ (by decide)).2 (by decide)).1,
   ((string_contract ⟨[104, 105], by rfl⟩ ⟨[], 0⟩ (by decide)).2 (by decide)).2⟩

/-- C8: on tag 9, when the native-owned byte buffer is not valid text (here
the single byte 0xFF), the decode's error branch is reached and the
reference implementation aborts the process — the model's distinguished
`panicked` outcome, produced by the `unwrap` at `jit.rs` line 77 — rather
than returning a recoverable error value. -/
theorem string_decode_aborts :
    ofC 0 ⟨[(0, .nstring [255])], 1⟩ = (.error .panicked, ⟨[(0, .nstring [255])], 1⟩) := by
  rw [ofC]
  show ofCF 2 0 ⟨[(0, NativeVal.nstring [255])], 1⟩ = _
  rw [ofCF]
  norm_num [atiTag, lookupH, NativeVal.tag, atiToString, ptrToString,
    show validUtf8 [255] = false from rfl]

/-- C9: on the success path of `to_c` for a tuple, every child handle is
released exactly once after the native tuple is built: the run returns
without any invalid-free outcome (each `ati_free` found its handle live, so
none was freed twice), and the final store extends the initial one by the
tuple handle alone — every temporary child handle is gone, none leaked. -/
theorem tuple_children_released (vs : List IValue) (h : Heap) (p : Nat) (h' : Heap)
    (hw : h.wf) (hs : toC (.tuple vs) h = (.ok p, h')) :
    h'.mem = h.mem ++ [(p, encode (.tuple vs))] ∧ h'.wf :=
  ⟨(toC_ok _ h p h' hw hs).1, (toC_ok _ h p h' hw hs).2.2.2⟩

/-- C9 (witness): the tuple success path at `Tuple([Int(42), Double(3.1415)])`
on the empty store: the two child handles 0 and 1 are gone, only the tuple
handle 2 is live. -/
theorem tuple_children_released_witness :
    (⟨[(2, NativeVal.ntuple [.nint 42, .ndouble (.num 0x400921CAC083126F)])], 3⟩
        : Heap).mem
      = [] ++ [(2, encode (.tuple [.int 42, .double (.num 0x400921CAC083126F)]))] ∧
    (⟨[(2, NativeVal.ntuple [.nint 42, .ndouble (.num 0x400921CAC083126F)])], 3⟩
        : Heap).wf :=
  tuple_children_released [.int 42, .double (.num 0x400921CAC083126F)] ⟨[], 0⟩ 2
    ⟨[(2, NativeVal.ntuple [.nint 42, .ndouble (.num 0x400921CAC083126F)])], 3⟩
    (by decide) (by rfl)

/-- C10: the derived structural equality of `IValue` delegates to IEEE
`f64` comparison on `Double`, under which a NaN is unequal to itself; so
`Double(NaN)` is a tensor-free value that round-trips to a bitwise
identical value (the model returns the very same value, as the second and
third conjuncts show) yet compares unequal to the original — structural
equality on `IValue` is not reflexive. -/
theorem ivalue_eq_not_reflexive_on_nan :
    ivalueEq (.double (.nan 0)) (.double (.nan 0)) = false ∧
    toC (.double (.nan 0)) ⟨[], 0⟩ = (.ok 0, ⟨[(0, .ndouble (.nan 0))], 1⟩) ∧
    ofC 0 ⟨[(0, .ndouble (.nan 0))], 1⟩ = (.ok (.double (.nan 0)), ⟨[], 1⟩) ∧
    tensorFree (.double (.nan 0)) = true := by
  refine ⟨by rfl, by rfl, ?_, by rfl⟩
  rw [ofC]
  show ofCF 2 0 ⟨[(0, NativeVal.ndouble (.nan 0))], 1⟩ = _
  rw [ofCF]
  norm_num [atiTag, lookupH, NativeVal.tag, atiToDouble, atiFree, removeH]
